import Mathlib

/-!
Shallow embedding of the job-queue subsystem of `embedding_server.py`
(class `JobQueue` and dataclass `IndexJob`).

Python dictionaries become association lists, the deque becomes a list
(append at the right, pop at the left), the active set becomes a
duplicate-free list, `time.time()` becomes an explicit `now : ℚ`
argument supplied by the environment, and Python float arithmetic on
times and rates becomes exact rational arithmetic.  The truthiness test
`if job.started_at:` is modelled exactly (`none` and `some 0` are both
falsy).
-/

namespace EmbeddingServer

/-- Mirrors the `IndexJob` dataclass: identity, declared work size,
mutable progress counter, string status, and optional timestamps. -/
structure IndexJob where
  id : String
  project : String
  total_chunks : Int
  instance_id : String
  current : Int := 0
  status : String := "queued"
  created_at : ℚ
  started_at : Option ℚ := none
  completed_at : Option ℚ := none
  error : Option String := none
  deriving DecidableEq, Repr

/-- The live `self.jobs` dictionary, as an association list. -/
abbrev JobMap := List (String × IndexJob)

/-- `m.get(k)` on the jobs dictionary. -/
def dictGet (m : JobMap) (k : String) : Option IndexJob :=
  match m with
  | [] => none
  | p :: rest => if p.1 = k then some p.2 else dictGet rest k

/-- `m[k] = v` on the jobs dictionary: overwrite the existing binding
or append a new one. -/
def dictSet (m : JobMap) (k : String) (v : IndexJob) : JobMap :=
  match m with
  | [] => [(k, v)]
  | p :: rest => if p.1 = k then (k, v) :: rest else p :: dictSet rest k v

/-- `del m[k]` on the jobs dictionary. -/
def dictDel (m : JobMap) (k : String) : JobMap :=
  m.filter (fun p => p.1 != k)

/-- `s.add(x)` on the active set (kept duplicate-free). -/
def setAdd (l : List String) (x : String) : List String :=
  if x ∈ l then l else x :: l

/-- `s.discard(x)` on the active set. -/
def setDiscard (l : List String) (x : String) : List String :=
  l.filter (fun y => y != x)

/-- Python truthiness of an optional float: `None` and `0.0` are falsy. -/
def pyTruthy (o : Option ℚ) : Bool :=
  match o with
  | none => false
  | some t => t != 0

/-- The state owned by the `JobQueue` class. -/
structure JobQueue where
  max_workers : Nat
  jobs : JobMap
  queue : List String
  active : List String
  recent : List IndexJob
  total_chunks_processed : Int
  total_processing_time : ℚ
  deriving DecidableEq, Repr

/-- `JobQueue.__init__(max_workers)`. -/
def initQueue (mw : Nat) : JobQueue :=
  { max_workers := mw, jobs := [], queue := [], active := [], recent := [],
    total_chunks_processed := 0, total_processing_time := 0 }

/-- The `while` loop of `JobQueue._try_activate`, recursing on the wait
list: while there is capacity, pop the leftmost id; if it maps to a job
whose status is `"queued"`, mark it active, stamp `started_at`, and add
it to the active set; ids that resolve to nothing or to a non-queued job
are dropped. -/
def activateLoop (now : ℚ) (mw : Nat) :
    List String → JobMap → List String → List String × JobMap × List String
  | [], jobs, active => ([], jobs, active)
  | jid :: rest, jobs, active =>
    if active.length < mw then
      match dictGet jobs jid with
      | some job =>
        if job.status = "queued" then
          activateLoop now mw rest
            (dictSet jobs jid { job with status := "active", started_at := some now })
            (setAdd active jid)
        else activateLoop now mw rest jobs active
      | none => activateLoop now mw rest jobs active
    else (jid :: rest, jobs, active)

/-- `JobQueue._try_activate`. -/
def tryActivate (now : ℚ) (s : JobQueue) : JobQueue :=
  let r := activateLoop now s.max_workers s.queue s.jobs s.active
  { s with queue := r.1, jobs := r.2.1, active := r.2.2 }

/-- The `IndexJob(...)` constructor call inside `register`: all optional
fields keep their dataclass defaults. -/
def newJob (job_id project : String) (total_chunks : Int)
    (instance_id : String) (now : ℚ) : IndexJob :=
  { id := job_id, project := project, total_chunks := total_chunks,
    instance_id := instance_id, created_at := now }

/-- `JobQueue.register`: create the job in `queued` status, append its id
to the wait list, then attempt admission.  Returns the (possibly already
activated) job alongside the new state. -/
def register (s : JobQueue) (job_id project : String) (total_chunks : Int)
    (instance_id : String) (now : ℚ) : JobQueue × IndexJob :=
  let job := newJob job_id project total_chunks instance_id now
  let s1 := { s with jobs := dictSet s.jobs job_id job,
                     queue := s.queue ++ [job_id] }
  let s2 := tryActivate now s1
  (s2, (dictGet s2.jobs job_id).getD job)

/-- `JobQueue.update_progress`: overwrite `current` iff the job exists
and is active. -/
def update_progress (s : JobQueue) (job_id : String) (current : Int) :
    JobQueue × Bool :=
  match dictGet s.jobs job_id with
  | none => (s, false)
  | some job =>
    if job.status = "active" then
      ({ s with jobs := dictSet s.jobs job_id { job with current := current } },
       true)
    else (s, false)

/-- `JobQueue.complete`. -/
def complete (s : JobQueue) (job_id : String) (now : ℚ) : JobQueue × Bool :=
  match dictGet s.jobs job_id with
  | none => (s, false)
  | some job =>
    let job1 := { job with status := "completed",
                           completed_at := some now,
                           current := job.total_chunks }
    let tcp := if pyTruthy job1.started_at then
        s.total_chunks_processed + job1.total_chunks
      else s.total_chunks_processed
    let tpt := if pyTruthy job1.started_at then
        s.total_processing_time + (now - job1.started_at.getD 0)
      else s.total_processing_time
    let s1 := { s with jobs := dictDel s.jobs job_id,
                       active := setDiscard s.active job_id,
                       recent := (job1 :: s.recent).take 10,
                       total_chunks_processed := tcp,
                       total_processing_time := tpt }
    (tryActivate now s1, true)

/-- `JobQueue.fail`. -/
def fail (s : JobQueue) (job_id error : String) (now : ℚ) : JobQueue × Bool :=
  match dictGet s.jobs job_id with
  | none => (s, false)
  | some job =>
    let job1 := { job with status := "failed",
                           completed_at := some now,
                           error := some error }
    let s1 := { s with jobs := dictDel s.jobs job_id,
                       active := setDiscard s.active job_id,
                       recent := (job1 :: s.recent).take 10 }
    (tryActivate now s1, true)

/-- `JobQueue.cancel`: remove the id from the wait list (first
occurrence) and the active set, delete it from the live map, then
attempt admission. -/
def cancel (s : JobQueue) (job_id : String) (now : ℚ) : JobQueue × Bool :=
  match dictGet s.jobs job_id with
  | none => (s, false)
  | some _ =>
    let s1 := { s with queue := s.queue.erase job_id,
                       active := setDiscard s.active job_id,
                       jobs := dictDel s.jobs job_id }
    (tryActivate now s1, true)

/-- `JobQueue.clear_recent`. -/
def clear_recent (s : JobQueue) : JobQueue × Nat :=
  ({ s with recent := [] }, s.recent.length)

/-- `JobQueue.get_position`: `0` if the id is in the active set, else the
1-based index of its first occurrence in the wait list, else `-1`. -/
def get_position (s : JobQueue) (job_id : String) : Int :=
  if job_id ∈ s.active then 0
  else
    match s.queue.findIdx? (fun x => x == job_id) with
    | some i => (i : Int) + 1
    | none => -1

/-- `JobQueue.estimate_wait_time`. -/
def estimate_wait_time (s : JobQueue) (position chunks_ahead : Int) :
    Option ℚ :=
  if s.total_processing_time = 0 then none
  else
    let rate : ℚ := (s.total_chunks_processed : ℚ) / s.total_processing_time
    if 0 < rate then some ((chunks_ahead : ℚ) / rate) else none

/-- One externally invokable mutating operation of the queue. -/
inductive Op where
  | register (job_id project : String) (total_chunks : Int)
      (instance_id : String) (now : ℚ)
  | update_progress (job_id : String) (current : Int)
  | complete (job_id : String) (now : ℚ)
  | fail (job_id error : String) (now : ℚ)
  | cancel (job_id : String) (now : ℚ)
  | clear_recent
  deriving DecidableEq, Repr

/-- Apply one operation to the state (discarding the returned value). -/
def stepOp (s : JobQueue) : Op → JobQueue
  | .register jid pr tc iid now => (register s jid pr tc iid now).1
  | .update_progress jid cur => (update_progress s jid cur).1
  | .complete jid now => (complete s jid now).1
  | .fail jid err now => (fail s jid err now).1
  | .cancel jid now => (cancel s jid now).1
  | .clear_recent => (clear_recent s).1

/-- Apply a whole sequence of operations. -/
def runOps (s : JobQueue) (ops : List Op) : JobQueue :=
  ops.foldl stepOp s

/-- Ids of the jobs retained in the recent history. -/
def recentIds (s : JobQueue) : List String := s.recent.map (fun j => j.id)

/-- The freshness the `uuid`-based id generator provides: the new id
collides with nothing the queue has ever retained. -/
def freshId (s : JobQueue) (jid : String) : Prop :=
  dictGet s.jobs jid = none ∧ jid ∉ s.queue ∧ jid ∉ s.active ∧
    jid ∉ recentIds s

instance (s : JobQueue) (jid : String) : Decidable (freshId s jid) := by
  unfold freshId
  infer_instance

/-- Environment guarantees under which an operation is issued by the real
server: registered ids are fresh, and every `time.time()` reading is
positive. -/
def okOp (s : JobQueue) : Op → Prop
  | .register jid _ _ _ now => freshId s jid ∧ 0 < now
  | .complete _ now => 0 < now
  | .fail _ _ now => 0 < now
  | .cancel _ now => 0 < now
  | _ => True

/-- States the running server can actually be in. -/
inductive Reachable : JobQueue → Prop where
  | init (mw : Nat) : Reachable (initQueue mw)
  | step (s : JobQueue) (op : Op) : Reachable s → okOp s op →
      Reachable (stepOp s op)

/-! ### Intermediate states of the compound operations -/

/-- The state `register` builds just before it retries admission. -/
def registerMid (s : JobQueue) (job_id project : String) (total_chunks : Int)
    (instance_id : String) (now : ℚ) : JobQueue :=
  { s with
    jobs := dictSet s.jobs job_id
      (newJob job_id project total_chunks instance_id now),
    queue := s.queue ++ [job_id] }

/-- The state `complete` builds (for the live job `job` found under
`job_id`) just before it retries admission. -/
def completeMid (s : JobQueue) (job_id : String) (now : ℚ)
    (job : IndexJob) : JobQueue :=
  { s with
    jobs := dictDel s.jobs job_id,
    active := setDiscard s.active job_id,
    recent := ({ job with
                 status := "completed", completed_at := some now,
                 current := job.total_chunks } :: s.recent).take 10,
    total_chunks_processed := if pyTruthy job.started_at then
        s.total_chunks_processed + job.total_chunks
      else s.total_chunks_processed,
    total_processing_time := if pyTruthy job.started_at then
        s.total_processing_time + (now - job.started_at.getD 0)
      else s.total_processing_time }

/-- The state `fail` builds just before it retries admission. -/
def failMid (s : JobQueue) (job_id error : String) (now : ℚ)
    (job : IndexJob) : JobQueue :=
  { s with
    jobs := dictDel s.jobs job_id,
    active := setDiscard s.active job_id,
    recent := ({ job with
                 status := "failed", completed_at := some now,
                 error := some error } :: s.recent).take 10 }

/-- The state `cancel` builds just before it retries admission. -/
def cancelMid (s : JobQueue) (job_id : String) : JobQueue :=
  { s with
    queue := s.queue.erase job_id,
    active := setDiscard s.active job_id,
    jobs := dictDel s.jobs job_id }

/-! ### Concrete states used by examples, witnesses and counterexamples -/

def opRegA : Op := Op.register "a" "p" 3 "i" 1

def opRegB : Op := Op.register "b" "p" 4 "i" 2

def opRegC : Op := Op.register "c" "p" 5 "i" 3

/-- Two jobs registered on a single-worker queue: `a` active, `b` queued. -/
def sAB : JobQueue := runOps (initQueue 1) [opRegA, opRegB]

/-- Three jobs registered on a single-worker queue. -/
def sABC : JobQueue := runOps (initQueue 1) [opRegA, opRegB, opRegC]

/-- The live record of job `a` in `sAB`: activated at time 1. -/
def jobA : IndexJob :=
  { newJob "a" "p" 3 "i" 1 with status := "active", started_at := some 1 }

/-- The live record of job `b` in `sAB`: still queued. -/
def jobB : IndexJob := newJob "b" "p" 4 "i" 2

/-- A one-job single-worker state with a queued head and free capacity,
used to witness the FIFO activation theorem. -/
def sW : JobQueue :=
  { max_workers := 1, jobs := [("x", newJob "x" "p" 2 "i" 1)],
    queue := ["x"], active := [], recent := [],
    total_chunks_processed := 0, total_processing_time := 0 }

/-- Completing the still-queued job `b` of `sAB`: `b` goes straight from
queued to terminal while its id stays behind in the wait list. -/
def sCE : JobQueue := (complete sAB "b" 3).1

/-- One job of 100 chunks, activated at time 1 and completed at time 11:
the historical accumulators read 100 chunks in 10 time-units. -/
def s9 : JobQueue :=
  runOps (initQueue 1) [Op.register "a" "p" 100 "i" 1, Op.complete "a" 11]

/-- A single active job of 10 chunks. -/
def s10 : JobQueue := runOps (initQueue 1) [Op.register "a" "p" 10 "i" 1]

/-- The live record of the job of `s10`. -/
def jobA10 : IndexJob :=
  { newJob "a" "p" 10 "i" 1 with status := "active", started_at := some 1 }

/-- `s10` after the client reports progress 5. -/
def s10a : JobQueue := (update_progress s10 "a" 5).1

/-- Register twelve jobs, then complete all twelve in order. -/
def ops12 : List Op :=
  [Op.register "a" "p" 1 "i" 1, Op.register "b" "p" 1 "i" 2,
   Op.register "c" "p" 1 "i" 3, Op.register "d" "p" 1 "i" 4,
   Op.register "e" "p" 1 "i" 5, Op.register "f" "p" 1 "i" 6,
   Op.register "g" "p" 1 "i" 7, Op.register "h" "p" 1 "i" 8,
   Op.register "i" "p" 1 "i" 9, Op.register "j" "p" 1 "i" 10,
   Op.register "k" "p" 1 "i" 11, Op.register "l" "p" 1 "i" 12,
   Op.complete "a" 13, Op.complete "b" 14, Op.complete "c" 15,
   Op.complete "d" 16, Op.complete "e" 17, Op.complete "f" 18,
   Op.complete "g" 19, Op.complete "h" 20, Op.complete "i" 21,
   Op.complete "j" 22, Op.complete "k" 23, Op.complete "l" 24]

/-- The state after completing twelve distinct jobs. -/
def s12 : JobQueue := runOps (initQueue 1) ops12

/-! ### Association-list and set lemmas -/

theorem dictGet_dictSet_self (m : JobMap) (k : String) (v : IndexJob) :
    dictGet (dictSet m k v) k = some v := by
  induction m with
  | nil => simp [dictSet, dictGet]
  | cons p rest ih =>
    by_cases h : p.1 = k
    · simp [dictSet, dictGet, h]
    · simp [dictSet, dictGet, h, ih]

theorem dictGet_dictSet_ne (m : JobMap) (k k' : String) (v : IndexJob)
    (h : k' ≠ k) : dictGet (dictSet m k v) k' = dictGet m k' := by
  have hkk : ¬(k = k') := fun hh => h hh.symm
  induction m with
  | nil => simp [dictSet, dictGet, hkk]
  | cons p rest ih =>
    by_cases hp : p.1 = k
    · have hp' : ¬(p.1 = k') := by rw [hp]; exact hkk
      simp [dictSet, dictGet, hp, hp', hkk]
    · by_cases hp' : p.1 = k'
      · simp [dictSet, dictGet, hp, hp', hkk, h]
      · simp [dictSet, dictGet, hp, hp', ih]

theorem dictGet_dictDel_self (m : JobMap) (k : String) :
    dictGet (dictDel m k) k = none := by
  induction m with
  | nil => simp [dictDel, dictGet]
  | cons p rest ih =>
    by_cases h : p.1 = k
    · simpa [dictDel, dictGet, h] using ih
    · simpa [dictDel, dictGet, h] using ih

theorem dictGet_dictDel_ne (m : JobMap) (k k' : String) (h : k' ≠ k) :
    dictGet (dictDel m k) k' = dictGet m k' := by
  have hkk : ¬(k = k') := fun hh => h hh.symm
  induction m with
  | nil => simp [dictDel, dictGet]
  | cons p rest ih =>
    by_cases hp : p.1 = k
    · have hp' : ¬(p.1 = k') := by rw [hp]; exact hkk
      simpa [dictDel, dictGet, hp, hp', hkk] using ih
    · by_cases hp' : p.1 = k'
      · simp [dictDel, dictGet, hp, hp', h]
      · simpa [dictDel, dictGet, hp, hp'] using ih

theorem mem_dictSet (m : JobMap) (k : String) (v : IndexJob) (p : String × IndexJob)
    (hp : p ∈ dictSet m k v) : p = (k, v) ∨ p ∈ m := by
  induction m with
  | nil => simpa [dictSet] using hp
  | cons q rest ih =>
    by_cases h : q.1 = k
    · simp [dictSet, h] at hp
      rcases hp with hp | hp
      · exact Or.inl hp
      · exact Or.inr (List.mem_cons_of_mem _ hp)
    · simp [dictSet, h] at hp
      rcases hp with hp | hp
      · exact Or.inr (by simp [hp])
      · rcases ih hp with hh | hh
        · exact Or.inl hh
        · exact Or.inr (List.mem_cons_of_mem _ hh)

theorem mem_dictDel (m : JobMap) (k : String) (p : String × IndexJob)
    (hp : p ∈ dictDel m k) : p ∈ m ∧ p.1 ≠ k := by
  have := List.mem_filter.mp hp
  refine ⟨this.1, ?_⟩
  simpa using this.2

theorem dictGet_mem (m : JobMap) (k : String) (v : IndexJob)
    (h : dictGet m k = some v) : (k, v) ∈ m := by
  induction m with
  | nil => simp [dictGet] at h
  | cons p rest ih =>
    obtain ⟨p1, p2⟩ := p
    by_cases hp : p1 = k
    · subst hp
      simp [dictGet] at h
      subst h
      exact List.mem_cons_self _ _
    · simp [dictGet, hp] at h
      exact List.mem_cons_of_mem _ (ih h)

theorem mem_setAdd (l : List String) (a x : String) :
    x ∈ setAdd l a ↔ x = a ∨ x ∈ l := by
  unfold setAdd
  by_cases h : a ∈ l
  · simp only [if_pos h]
    constructor
    · exact Or.inr
    · rintro (rfl | hx)
      · exact h
      · exact hx
  · simp [if_neg h]

theorem length_setAdd_le (l : List String) (a : String) :
    (setAdd l a).length ≤ l.length + 1 := by
  unfold setAdd
  by_cases h : a ∈ l <;> simp [h]

theorem mem_setDiscard (l : List String) (a x : String) :
    x ∈ setDiscard l a ↔ x ∈ l ∧ x ≠ a := by
  simp [setDiscard, List.mem_filter]

theorem length_setDiscard_le (l : List String) (a : String) :
    (setDiscard l a).length ≤ l.length :=
  List.length_filter_le _ _

/-! ### Lemmas about the activation sweep -/

theorem activateLoop_queue_drop (now : ℚ) (mw : Nat) (q : List String)
    (jobs : JobMap) (active : List String) :
    ∃ n, (activateLoop now mw q jobs active).1 = q.drop n := by
  induction q generalizing jobs active with
  | nil => exact ⟨0, rfl⟩
  | cons jid rest ih =>
    by_cases hcap : active.length < mw
    · cases hget : dictGet jobs jid with
      | none =>
        obtain ⟨n, hn⟩ := ih jobs active
        exact ⟨n + 1, by simpa [activateLoop, hcap, hget] using hn⟩
      | some job =>
        by_cases hq : job.status = "queued"
        · obtain ⟨n, hn⟩ := ih
            (dictSet jobs jid { job with status := "active", started_at := some now })
            (setAdd active jid)
          exact ⟨n + 1, by simpa [activateLoop, hcap, hget, hq] using hn⟩
        · obtain ⟨n, hn⟩ := ih jobs active
          exact ⟨n + 1, by simpa [activateLoop, hcap, hget, hq] using hn⟩
    · exact ⟨0, by simp [activateLoop, hcap]⟩

theorem activateLoop_mem_jobs (now : ℚ) (mw : Nat) (q : List String)
    (jobs : JobMap) (active : List String) (p : String × IndexJob)
    (hp : p ∈ (activateLoop now mw q jobs active).2.1) :
    p ∈ jobs ∨ ∃ r, r ∈ jobs ∧ p.1 = r.1 ∧ r.2.status = "queued" ∧
      p.2 = { r.2 with status := "active", started_at := some now } := by
  induction q generalizing jobs active with
  | nil => exact Or.inl (by simpa [activateLoop] using hp)
  | cons jid rest ih =>
    by_cases hcap : active.length < mw
    · cases hget : dictGet jobs jid with
      | none =>
        rw [activateLoop] at hp
        simp only [if_pos hcap, hget] at hp
        exact ih jobs active hp
      | some job =>
        by_cases hq : job.status = "queued"
        · rw [activateLoop] at hp
          simp only [if_pos hcap, hget, if_pos hq] at hp
          rcases ih _ _ hp with hmem | ⟨r, hr, hr1, hr2, hr3⟩
          · rcases mem_dictSet _ _ _ _ hmem with rfl | hmem'
            · exact Or.inr ⟨(jid, job), dictGet_mem _ _ _ hget, rfl, hq, rfl⟩
            · exact Or.inl hmem'
          · rcases mem_dictSet _ _ _ _ hr with rfl | hr'
            · simp at hr2
            · exact Or.inr ⟨r, hr', hr1, hr2, hr3⟩
        · rw [activateLoop] at hp
          simp only [if_pos hcap, hget, if_neg hq] at hp
          exact ih jobs active hp
    · rw [activateLoop] at hp
      simp only [if_neg hcap] at hp
      exact Or.inl hp

theorem activateLoop_dictGet (now : ℚ) (mw : Nat) (q : List String)
    (jobs : JobMap) (active : List String) (k : String) :
    dictGet (activateLoop now mw q jobs active).2.1 k = dictGet jobs k ∨
    ∃ job, dictGet jobs k = some job ∧ job.status = "queued" ∧
      dictGet (activateLoop now mw q jobs active).2.1 k =
        some { job with status := "active", started_at := some now } := by
  induction q generalizing jobs active with
  | nil => exact Or.inl rfl
  | cons jid rest ih =>
    by_cases hcap : active.length < mw
    · cases hget : dictGet jobs jid with
      | none =>
        rw [activateLoop]
        simp only [if_pos hcap, hget]
        exact ih jobs active
      | some job =>
        by_cases hq : job.status = "queued"
        · rw [activateLoop]
          simp only [if_pos hcap, hget, if_pos hq]
          by_cases hk : k = jid
          · subst hk
            rcases ih (dictSet jobs k { job with status := "active", started_at := some now })
                (setAdd active k) with hl | ⟨job2, h2, h2s, h2g⟩
            · rw [dictGet_dictSet_self] at hl
              exact Or.inr ⟨job, hget, hq, hl⟩
            · rw [dictGet_dictSet_self] at h2
              cases h2
              simp at h2s
          · rcases ih (dictSet jobs jid { job with status := "active", started_at := some now })
                (setAdd active jid) with hl | ⟨job2, h2, h2s, h2g⟩
            · rw [dictGet_dictSet_ne _ _ _ _ hk] at hl
              exact Or.inl hl
            · rw [dictGet_dictSet_ne _ _ _ _ hk] at h2
              exact Or.inr ⟨job2, h2, h2s, h2g⟩
        · rw [activateLoop]
          simp only [if_pos hcap, hget, if_neg hq]
          exact ih jobs active
    · rw [activateLoop]
      simp only [if_neg hcap]
      exact Or.inl trivial

theorem activateLoop_dictGet_none (now : ℚ) (mw : Nat) (q : List String)
    (jobs : JobMap) (active : List String) (k : String)
    (h : dictGet jobs k = none) :
    dictGet (activateLoop now mw q jobs active).2.1 k = none := by
  rcases activateLoop_dictGet now mw q jobs active k with hl | ⟨job, hj, _, _⟩
  · rw [hl, h]
  · rw [h] at hj
    cases hj

theorem activateLoop_active_mono (now : ℚ) (mw : Nat) (q : List String)
    (jobs : JobMap) (active : List String) (x : String) (hx : x ∈ active) :
    x ∈ (activateLoop now mw q jobs active).2.2 := by
  induction q generalizing jobs active with
  | nil => simpa [activateLoop] using hx
  | cons jid rest ih =>
    by_cases hcap : active.length < mw
    · cases hget : dictGet jobs jid with
      | none =>
        rw [activateLoop]
        simp only [if_pos hcap, hget]
        exact ih jobs active hx
      | some job =>
        by_cases hq : job.status = "queued"
        · rw [activateLoop]
          simp only [if_pos hcap, hget, if_pos hq]
          exact ih _ _ ((mem_setAdd active jid x).mpr (Or.inr hx))
        · rw [activateLoop]
          simp only [if_pos hcap, hget, if_neg hq]
          exact ih jobs active hx
    · rw [activateLoop]
      simp only [if_neg hcap]
      exact hx

theorem activateLoop_not_mem_active (now : ℚ) (mw : Nat) (q : List String)
    (jobs : JobMap) (active : List String) (x : String)
    (hx : x ∉ active) (hg : dictGet jobs x = none) :
    x ∉ (activateLoop now mw q jobs active).2.2 := by
  induction q generalizing jobs active with
  | nil => simpa [activateLoop] using hx
  | cons jid rest ih =>
    by_cases hcap : active.length < mw
    · cases hget : dictGet jobs jid with
      | none =>
        rw [activateLoop]
        simp only [if_pos hcap, hget]
        exact ih jobs active hx hg
      | some job =>
        have hne : x ≠ jid := by
          intro hh
          rw [hh, hget] at hg
          cases hg
        by_cases hq : job.status = "queued"
        · rw [activateLoop]
          simp only [if_pos hcap, hget, if_pos hq]
          refine ih _ _ ?_ ?_
          · intro hmem
            rcases (mem_setAdd active jid x).mp hmem with hh | hh
            · exact hne hh
            · exact hx hh
          · rw [dictGet_dictSet_ne _ _ _ _ hne]
            exact hg
        · rw [activateLoop]
          simp only [if_pos hcap, hget, if_neg hq]
          exact ih jobs active hx hg
    · rw [activateLoop]
      simp only [if_neg hcap]
      exact hx

theorem activateLoop_active_length (now : ℚ) (mw : Nat) (q : List String)
    (jobs : JobMap) (active : List String) (h : active.length ≤ mw) :
    (activateLoop now mw q jobs active).2.2.length ≤ mw := by
  induction q generalizing jobs active with
  | nil => simpa [activateLoop] using h
  | cons jid rest ih =>
    by_cases hcap : active.length < mw
    · cases hget : dictGet jobs jid with
      | none =>
        rw [activateLoop]
        simp only [if_pos hcap, hget]
        exact ih jobs active h
      | some job =>
        by_cases hq : job.status = "queued"
        · rw [activateLoop]
          simp only [if_pos hcap, hget, if_pos hq]
          refine ih _ _ ?_
          calc (setAdd active jid).length ≤ active.length + 1 :=
                length_setAdd_le active jid
            _ ≤ mw := hcap
        · rw [activateLoop]
          simp only [if_pos hcap, hget, if_neg hq]
          exact ih jobs active h
    · rw [activateLoop]
      simp only [if_neg hcap]
      exact h

theorem tryActivate_recent (now : ℚ) (s : JobQueue) :
    (tryActivate now s).recent = s.recent := rfl

theorem tryActivate_max_workers (now : ℚ) (s : JobQueue) :
    (tryActivate now s).max_workers = s.max_workers := rfl

theorem tryActivate_tcp (now : ℚ) (s : JobQueue) :
    (tryActivate now s).total_chunks_processed = s.total_chunks_processed := rfl

theorem tryActivate_tpt (now : ℚ) (s : JobQueue) :
    (tryActivate now s).total_processing_time = s.total_processing_time := rfl

theorem tryActivate_jobs (now : ℚ) (s : JobQueue) :
    (tryActivate now s).jobs =
      (activateLoop now s.max_workers s.queue s.jobs s.active).2.1 := rfl

theorem tryActivate_queue (now : ℚ) (s : JobQueue) :
    (tryActivate now s).queue =
      (activateLoop now s.max_workers s.queue s.jobs s.active).1 := rfl

theorem tryActivate_active (now : ℚ) (s : JobQueue) :
    (tryActivate now s).active =
      (activateLoop now s.max_workers s.queue s.jobs s.active).2.2 := rfl

/-! ### The inductive invariant of reachable states -/

/-- Structural facts every reachable `JobQueue` state satisfies: live
jobs are queued or active, retained history is terminal, recorded start
times are positive, the wait list has no duplicate ids, live ids never
collide with history ids, and the stored `id` field agrees with the
dictionary key. -/
structure Inv (s : JobQueue) : Prop where
  liveStatus : ∀ p ∈ s.jobs, p.2.status = "queued" ∨ p.2.status = "active"
  recentStatus : ∀ j ∈ s.recent, j.status = "completed" ∨ j.status = "failed"
  timesPos : ∀ p ∈ s.jobs, ∀ t, p.2.started_at = some t → 0 < t
  queueNodup : s.queue.Nodup
  liveRecentDisj : ∀ p ∈ s.jobs, p.1 ∉ recentIds s
  idMatch : ∀ p ∈ s.jobs, p.2.id = p.1

theorem tryActivate_inv (now : ℚ) (s : JobQueue) (h0 : 0 < now) (h : Inv s) :
    Inv (tryActivate now s) := by
  refine ⟨?_, ?_, ?_, ?_, ?_, ?_⟩
  · intro p hp
    rw [tryActivate_jobs] at hp
    rcases activateLoop_mem_jobs _ _ _ _ _ p hp with hm | ⟨r, hr, _, _, hp2⟩
    · exact h.liveStatus p hm
    · rw [hp2]
      exact Or.inr rfl
  · intro j hj
    rw [tryActivate_recent] at hj
    exact h.recentStatus j hj
  · intro p hp t ht
    rw [tryActivate_jobs] at hp
    rcases activateLoop_mem_jobs _ _ _ _ _ p hp with hm | ⟨r, hr, _, _, hp2⟩
    · exact h.timesPos p hm t ht
    · rw [hp2] at ht
      have hnt := Option.some.inj ht
      rw [← hnt]
      exact h0
  · rw [tryActivate_queue]
    obtain ⟨n, hn⟩ := activateLoop_queue_drop now s.max_workers s.queue s.jobs s.active
    rw [hn]
    exact h.queueNodup.sublist (List.drop_sublist n s.queue)
  · intro p hp
    rw [tryActivate_jobs] at hp
    have hrec : recentIds (tryActivate now s) = recentIds s := by
      unfold recentIds
      rw [tryActivate_recent]
    rw [hrec]
    rcases activateLoop_mem_jobs _ _ _ _ _ p hp with hm | ⟨r, hr, hp1, _, _⟩
    · exact h.liveRecentDisj p hm
    · rw [hp1]
      exact h.liveRecentDisj r hr
  · intro p hp
    rw [tryActivate_jobs] at hp
    rcases activateLoop_mem_jobs _ _ _ _ _ p hp with hm | ⟨r, hr, hp1, _, hp2⟩
    · exact h.idMatch p hm
    · rw [hp2, hp1]
      exact h.idMatch r hr

theorem register_inv (s : JobQueue) (jid pr : String) (tc : Int)
    (iid : String) (now : ℚ) (h : Inv s) (hfresh : freshId s jid)
    (h0 : 0 < now) : Inv (register s jid pr tc iid now).1 := by
  obtain ⟨hfj, hfq, hfa, hfr⟩ := hfresh
  refine tryActivate_inv now _ h0 ?_
  refine ⟨?_, ?_, ?_, ?_, ?_, ?_⟩
  · intro p hp
    rcases mem_dictSet _ _ _ _ hp with rfl | hp'
    · exact Or.inl rfl
    · exact h.liveStatus p hp'
  · intro j hj
    exact h.recentStatus j hj
  · intro p hp t ht
    rcases mem_dictSet _ _ _ _ hp with rfl | hp'
    · cases ht
    · exact h.timesPos p hp' t ht
  · show (s.queue ++ [jid]).Nodup
    simp [List.nodup_append, h.queueNodup, hfq]
  · intro p hp
    rcases mem_dictSet _ _ _ _ hp with rfl | hp'
    · exact hfr
    · exact h.liveRecentDisj p hp'
  · intro p hp
    rcases mem_dictSet _ _ _ _ hp with rfl | hp'
    · rfl
    · exact h.idMatch p hp'

theorem update_progress_inv (s : JobQueue) (jid : String) (cur : Int)
    (h : Inv s) : Inv (update_progress s jid cur).1 := by
  cases hget : dictGet s.jobs jid with
  | none => simpa only [update_progress, hget] using h
  | some job =>
    by_cases hst : job.status = "active"
    · have hmem : (jid, job) ∈ s.jobs := dictGet_mem _ _ _ hget
      simp only [update_progress, hget, if_pos hst]
      refine ⟨?_, ?_, ?_, ?_, ?_, ?_⟩
      · intro p hp
        rcases mem_dictSet _ _ _ _ hp with rfl | hp'
        · exact h.liveStatus (jid, job) hmem
        · exact h.liveStatus p hp'
      · intro j hj
        exact h.recentStatus j hj
      · intro p hp t ht
        rcases mem_dictSet _ _ _ _ hp with rfl | hp'
        · exact h.timesPos (jid, job) hmem t ht
        · exact h.timesPos p hp' t ht
      · exact h.queueNodup
      · intro p hp
        rcases mem_dictSet _ _ _ _ hp with rfl | hp'
        · exact h.liveRecentDisj (jid, job) hmem
        · exact h.liveRecentDisj p hp'
      · intro p hp
        rcases mem_dictSet _ _ _ _ hp with rfl | hp'
        · exact h.idMatch (jid, job) hmem
        · exact h.idMatch p hp'
    · simpa only [update_progress, hget, if_neg hst] using h

theorem complete_inv (s : JobQueue) (jid : String) (now : ℚ)
    (h : Inv s) (h0 : 0 < now) : Inv (complete s jid now).1 := by
  cases hget : dictGet s.jobs jid with
  | none => simpa only [complete, hget] using h
  | some job =>
    have hmem : (jid, job) ∈ s.jobs := dictGet_mem _ _ _ hget
    have hid : job.id = jid := h.idMatch (jid, job) hmem
    simp only [complete, hget]
    refine tryActivate_inv now _ h0 ?_
    refine ⟨?_, ?_, ?_, ?_, ?_, ?_⟩
    · intro p hp
      exact h.liveStatus p (mem_dictDel _ _ _ hp).1
    · intro j hj
      rcases List.mem_cons.mp (List.take_subset _ _ hj) with rfl | hj'
      · exact Or.inl rfl
      · exact h.recentStatus j hj'
    · intro p hp t ht
      exact h.timesPos p (mem_dictDel _ _ _ hp).1 t ht
    · exact h.queueNodup
    · intro p hp hrec
      obtain ⟨hpm, hpne⟩ := mem_dictDel _ _ _ hp
      have : p.1 ∈ jid :: recentIds s := by
        rcases List.mem_map.mp hrec with ⟨j, hj, hjid⟩
        have hj' := List.take_subset _ _ hj
        rcases List.mem_cons.mp hj' with rfl | hj''
        · refine List.mem_cons.mpr (Or.inl ?_)
          rw [← hjid]
          exact hid
        · exact List.mem_cons.mpr (Or.inr (List.mem_map.mpr ⟨j, hj'', hjid⟩))
      rcases List.mem_cons.mp this with hh | hh
      · exact hpne hh
      · exact h.liveRecentDisj p hpm hh
    · intro p hp
      exact h.idMatch p (mem_dictDel _ _ _ hp).1

theorem fail_inv (s : JobQueue) (jid err : String) (now : ℚ)
    (h : Inv s) (h0 : 0 < now) : Inv (fail s jid err now).1 := by
  cases hget : dictGet s.jobs jid with
  | none => simpa only [fail, hget] using h
  | some job =>
    have hmem : (jid, job) ∈ s.jobs := dictGet_mem _ _ _ hget
    have hid : job.id = jid := h.idMatch (jid, job) hmem
    simp only [fail, hget]
    refine tryActivate_inv now _ h0 ?_
    refine ⟨?_, ?_, ?_, ?_, ?_, ?_⟩
    · intro p hp
      exact h.liveStatus p (mem_dictDel _ _ _ hp).1
    · intro j hj
      rcases List.mem_cons.mp (List.take_subset _ _ hj) with rfl | hj'
      · exact Or.inr rfl
      · exact h.recentStatus j hj'
    · intro p hp t ht
      exact h.timesPos p (mem_dictDel _ _ _ hp).1 t ht
    · exact h.queueNodup
    · intro p hp hrec
      obtain ⟨hpm, hpne⟩ := mem_dictDel _ _ _ hp
      have : p.1 ∈ jid :: recentIds s := by
        rcases List.mem_map.mp hrec with ⟨j, hj, hjid⟩
        have hj' := List.take_subset _ _ hj
        rcases List.mem_cons.mp hj' with rfl | hj''
        · refine List.mem_cons.mpr (Or.inl ?_)
          rw [← hjid]
          exact hid
        · exact List.mem_cons.mpr (Or.inr (List.mem_map.mpr ⟨j, hj'', hjid⟩))
      rcases List.mem_cons.mp this with hh | hh
      · exact hpne hh
      · exact h.liveRecentDisj p hpm hh
    · intro p hp
      exact h.idMatch p (mem_dictDel _ _ _ hp).1

theorem cancel_inv (s : JobQueue) (jid : String) (now : ℚ)
    (h : Inv s) (h0 : 0 < now) : Inv (cancel s jid now).1 := by
  cases hget : dictGet s.jobs jid with
  | none => simpa only [cancel, hget] using h
  | some job =>
    simp only [cancel, hget]
    refine tryActivate_inv now _ h0 ?_
    refine ⟨?_, ?_, ?_, ?_, ?_, ?_⟩
    · intro p hp
      exact h.liveStatus p (mem_dictDel _ _ _ hp).1
    · intro j hj
      exact h.recentStatus j hj
    · intro p hp t ht
      exact h.timesPos p (mem_dictDel _ _ _ hp).1 t ht
    · exact h.queueNodup.sublist (s.queue.erase_sublist jid)
    · intro p hp
      exact h.liveRecentDisj p (mem_dictDel _ _ _ hp).1
    · intro p hp
      exact h.idMatch p (mem_dictDel _ _ _ hp).1

theorem clear_recent_inv (s : JobQueue) (h : Inv s) :
    Inv (clear_recent s).1 := by
  refine ⟨?_, ?_, ?_, ?_, ?_, ?_⟩
  · intro p hp
    exact h.liveStatus p hp
  · intro j hj
    cases hj
  · intro p hp t ht
    exact h.timesPos p hp t ht
  · exact h.queueNodup
  · intro p hp hrec
    cases hrec
  · intro p hp
    exact h.idMatch p hp

theorem stepOp_inv (s : JobQueue) (op : Op) (h : Inv s) (hok : okOp s op) :
    Inv (stepOp s op) := by
  cases op with
  | register jid pr tc iid now => exact register_inv s jid pr tc iid now h hok.1 hok.2
  | update_progress jid cur => exact update_progress_inv s jid cur h
  | complete jid now => exact complete_inv s jid now h hok
  | fail jid err now => exact fail_inv s jid err now h hok
  | cancel jid now => exact cancel_inv s jid now h hok
  | clear_recent => exact clear_recent_inv s h

theorem reachable_inv (s : JobQueue) (h : Reachable s) : Inv s := by
  induction h with
  | init mw =>
    refine ⟨?_, ?_, ?_, ?_, ?_, ?_⟩ <;> simp [initQueue, recentIds]
  | step s op hs hok ih => exact stepOp_inv s op ih hok

/-! ### Capacity bound -/

theorem stepOp_max_workers (s : JobQueue) (op : Op) :
    (stepOp s op).max_workers = s.max_workers := by
  cases op with
  | register jid pr tc iid now => rfl
  | update_progress jid cur =>
    cases hget : dictGet s.jobs jid with
    | none => simp [stepOp, update_progress, hget]
    | some job =>
      by_cases hst : job.status = "active" <;>
        simp [stepOp, update_progress, hget, hst, tryActivate_max_workers]
  | complete jid now =>
    cases hget : dictGet s.jobs jid with
    | none => simp [stepOp, complete, hget]
    | some job => simp [stepOp, complete, hget, tryActivate_max_workers]
  | fail jid err now =>
    cases hget : dictGet s.jobs jid with
    | none => simp [stepOp, fail, hget]
    | some job => simp [stepOp, fail, hget, tryActivate_max_workers]
  | cancel jid now =>
    cases hget : dictGet s.jobs jid with
    | none => simp [stepOp, cancel, hget]
    | some job => simp [stepOp, cancel, hget, tryActivate_max_workers]
  | clear_recent => rfl

theorem step_active_le (s : JobQueue) (op : Op)
    (h : s.active.length ≤ s.max_workers) :
    (stepOp s op).active.length ≤ s.max_workers := by
  cases op with
  | register jid pr tc iid now =>
    show (tryActivate now _).active.length ≤ s.max_workers
    rw [tryActivate_active]
    exact activateLoop_active_length _ _ _ _ _ h
  | update_progress jid cur =>
    cases hget : dictGet s.jobs jid with
    | none => simpa [stepOp, update_progress, hget] using h
    | some job =>
      by_cases hst : job.status = "active" <;>
        simpa [stepOp, update_progress, hget, hst] using h
  | complete jid now =>
    cases hget : dictGet s.jobs jid with
    | none => simpa [stepOp, complete, hget] using h
    | some job =>
      have hd : (setDiscard s.active jid).length ≤ s.max_workers :=
        le_trans (length_setDiscard_le s.active jid) h
      simp only [stepOp, complete, hget]
      rw [tryActivate_active]
      exact activateLoop_active_length _ _ _ _ _ hd
  | fail jid err now =>
    cases hget : dictGet s.jobs jid with
    | none => simpa [stepOp, fail, hget] using h
    | some job =>
      have hd : (setDiscard s.active jid).length ≤ s.max_workers :=
        le_trans (length_setDiscard_le s.active jid) h
      simp only [stepOp, fail, hget]
      rw [tryActivate_active]
      exact activateLoop_active_length _ _ _ _ _ hd
  | cancel jid now =>
    cases hget : dictGet s.jobs jid with
    | none => simpa [stepOp, cancel, hget] using h
    | some job =>
      have hd : (setDiscard s.active jid).length ≤ s.max_workers :=
        le_trans (length_setDiscard_le s.active jid) h
      simp only [stepOp, cancel, hget]
      rw [tryActivate_active]
      exact activateLoop_active_length _ _ _ _ _ hd
  | clear_recent => exact h

theorem runOps_max_workers (ops : List Op) (s : JobQueue) :
    (runOps s ops).max_workers = s.max_workers := by
  induction ops generalizing s with
  | nil => rfl
  | cons op rest ih =>
    show (runOps (stepOp s op) rest).max_workers = s.max_workers
    rw [ih, stepOp_max_workers]

theorem runOps_active_le (ops : List Op) (s : JobQueue)
    (h : s.active.length ≤ s.max_workers) :
    (runOps s ops).active.length ≤ s.max_workers := by
  induction ops generalizing s with
  | nil => exact h
  | cons op rest ih =>
    show (runOps (stepOp s op) rest).active.length ≤ s.max_workers
    have h1 := step_active_le s op h
    have h2 := ih (stepOp s op) (by rw [stepOp_max_workers]; exact h1)
    rw [stepOp_max_workers] at h2
    exact h2

/-- Claim C1: starting from a fresh `JobQueue` of capacity `max_workers`,
after every sequence of operations (register, update_progress, complete,
fail, cancel, clear_recent) the active set holds at most `max_workers`
ids. -/
theorem c1_active_capacity_bound (mw : Nat) (ops : List Op) :
    (runOps (initQueue mw) ops).active.length ≤ mw :=
  runOps_active_le ops (initQueue mw) (by simp [initQueue])

/-! ### Facts about the concrete example states -/

theorem reach_sAB : Reachable sAB :=
  Reachable.step _ opRegB
    (Reachable.step _ opRegA (Reachable.init 1) ⟨by decide, by decide⟩)
    ⟨by decide, by decide⟩

theorem sAB_jobs_a : dictGet sAB.jobs "a" = some jobA := by rfl

theorem sAB_jobs_b : dictGet sAB.jobs "b" = some jobB := by rfl

/-! ### Per-step transition facts -/

theorem tryActivate_transition (s : JobQueue) (now : ℚ) (jid : String)
    (job job' : IndexJob) (hget : dictGet s.jobs jid = some job)
    (hstep : dictGet (tryActivate now s).jobs jid = some job') :
    job' = job ∨ (job.status = "queued" ∧
      job' = { job with status := "active", started_at := some now }) := by
  rw [tryActivate_jobs] at hstep
  rcases activateLoop_dictGet now s.max_workers s.queue s.jobs s.active jid with
    hl | ⟨j2, h2, h2s, h2g⟩
  · rw [hl, hget] at hstep
    exact Or.inl (Option.some.inj hstep).symm
  · rw [hget] at h2
    have hj2 : j2 = job := (Option.some.inj h2).symm
    subst hj2
    rw [h2g] at hstep
    exact Or.inr ⟨h2s, (Option.some.inj hstep).symm⟩

/-- Claim C2: queued jobs activate in strict FIFO (registration) order:
whenever the activation sweep runs with free capacity and the head of the
wait list is a queued job, that oldest job is the one activated; and
concretely, registering `a`, `b`, `c` on a single-worker queue leaves `a`
active and `b`, `c` queued in that order. -/
theorem c2_fifo_activation :
    (∀ (s : JobQueue) (now : ℚ) (jid : String) (rest : List String)
        (job : IndexJob), s.queue = jid :: rest →
        s.active.length < s.max_workers →
        dictGet s.jobs jid = some job → job.status = "queued" →
        jid ∈ (tryActivate now s).active ∧
        ∃ j, dictGet (tryActivate now s).jobs jid = some j ∧
          j.status = "active" ∧ j.started_at = some now) ∧
    (sABC.active = ["a"] ∧ sABC.queue = ["b", "c"] ∧
      (dictGet sABC.jobs "a").map (fun j => j.status) = some "active" ∧
      (dictGet sABC.jobs "b").map (fun j => j.status) = some "queued" ∧
      (dictGet sABC.jobs "c").map (fun j => j.status) = some "queued") := by
  constructor
  · intro s now jid rest job hq hcap hget hst
    constructor
    · rw [tryActivate_active, hq, activateLoop]
      simp only [if_pos hcap, hget, if_pos hst]
      exact activateLoop_active_mono _ _ _ _ _ _
        ((mem_setAdd _ _ _).mpr (Or.inl rfl))
    · rw [tryActivate_jobs, hq, activateLoop]
      simp only [if_pos hcap, hget, if_pos hst]
      rcases activateLoop_dictGet now s.max_workers rest
          (dictSet s.jobs jid
            { job with status := "active", started_at := some now })
          (setAdd s.active jid) jid with hl | ⟨j2, h2, h2s, h2g⟩
      · rw [dictGet_dictSet_self] at hl
        exact ⟨_, hl, rfl, rfl⟩
      · rw [dictGet_dictSet_self] at h2
        have hj2 := (Option.some.inj h2).symm
        subst hj2
        have h2s' : ("active" : String) = "queued" := h2s
        exact absurd h2s' (by decide)
  · exact ⟨by decide, by decide, by rfl, by rfl, by rfl⟩

theorem c2_fifo_activation_witness :
    "x" ∈ (tryActivate 5 sW).active ∧
    ∃ j, dictGet (tryActivate 5 sW).jobs "x" = some j ∧
      j.status = "active" ∧ j.started_at = some 5 :=
  c2_fifo_activation.1 sW 5 "x" [] (newJob "x" "p" 2 "i" 1)
    rfl (by decide) rfl rfl

/-! ### Bridges from the operations to their intermediate states -/

theorem register_fst (s : JobQueue) (jid pr : String) (tc : Int)
    (iid : String) (now : ℚ) :
    (register s jid pr tc iid now).1 =
      tryActivate now (registerMid s jid pr tc iid now) := rfl

theorem complete_eq (s : JobQueue) (jid : String) (now : ℚ) (job : IndexJob)
    (hget : dictGet s.jobs jid = some job) :
    complete s jid now = (tryActivate now (completeMid s jid now job), true) := by
  simp only [complete, hget]
  rfl

theorem fail_eq (s : JobQueue) (jid err : String) (now : ℚ) (job : IndexJob)
    (hget : dictGet s.jobs jid = some job) :
    fail s jid err now = (tryActivate now (failMid s jid err now job), true) := by
  simp only [fail, hget]
  rfl

theorem cancel_eq (s : JobQueue) (jid : String) (now : ℚ) (job : IndexJob)
    (hget : dictGet s.jobs jid = some job) :
    cancel s jid now = (tryActivate now (cancelMid s jid), true) := by
  simp only [cancel, hget]
  rfl

theorem registerMid_jobs (s : JobQueue) (jid pr : String) (tc : Int)
    (iid : String) (now : ℚ) :
    (registerMid s jid pr tc iid now).jobs =
      dictSet s.jobs jid (newJob jid pr tc iid now) := rfl

theorem completeMid_jobs (s : JobQueue) (jid : String) (now : ℚ)
    (job : IndexJob) :
    (completeMid s jid now job).jobs = dictDel s.jobs jid := rfl

theorem completeMid_recent (s : JobQueue) (jid : String) (now : ℚ)
    (job : IndexJob) :
    (completeMid s jid now job).recent =
      ({ job with
         status := "completed", completed_at := some now,
         current := job.total_chunks } :: s.recent).take 10 := rfl

theorem completeMid_active (s : JobQueue) (jid : String) (now : ℚ)
    (job : IndexJob) :
    (completeMid s jid now job).active = setDiscard s.active jid := rfl

theorem failMid_jobs (s : JobQueue) (jid err : String) (now : ℚ)
    (job : IndexJob) :
    (failMid s jid err now job).jobs = dictDel s.jobs jid := rfl

theorem failMid_recent (s : JobQueue) (jid err : String) (now : ℚ)
    (job : IndexJob) :
    (failMid s jid err now job).recent =
      ({ job with
         status := "failed", completed_at := some now,
         error := some err } :: s.recent).take 10 := rfl

theorem cancelMid_jobs (s : JobQueue) (jid : String) :
    (cancelMid s jid).jobs = dictDel s.jobs jid := rfl

theorem cancelMid_queue (s : JobQueue) (jid : String) :
    (cancelMid s jid).queue = s.queue.erase jid := rfl

theorem cancelMid_active (s : JobQueue) (jid : String) :
    (cancelMid s jid).active = setDiscard s.active jid := rfl

theorem cancelMid_recent (s : JobQueue) (jid : String) :
    (cancelMid s jid).recent = s.recent := rfl

theorem tryActivate_dictGet_none (now : ℚ) (s : JobQueue) (k : String)
    (h : dictGet s.jobs k = none) :
    dictGet (tryActivate now s).jobs k = none := by
  rw [tryActivate_jobs]
  exact activateLoop_dictGet_none _ _ _ _ _ _ h

theorem tryActivate_not_mem_active (now : ℚ) (s : JobQueue) (x : String)
    (hx : x ∉ s.active) (hg : dictGet s.jobs x = none) :
    x ∉ (tryActivate now s).active := by
  rw [tryActivate_active]
  exact activateLoop_not_mem_active _ _ _ _ _ _ hx hg

theorem tryActivate_not_mem_queue (now : ℚ) (s : JobQueue) (x : String)
    (hx : x ∉ s.queue) : x ∉ (tryActivate now s).queue := by
  rw [tryActivate_queue]
  obtain ⟨n, hn⟩ :=
    activateLoop_queue_drop now s.max_workers s.queue s.jobs s.active
  rw [hn]
  intro hmem
  exact hx (List.drop_subset _ _ hmem)

theorem tryActivate_transition_rev (s : JobQueue) (now : ℚ) (jid : String)
    (job' : IndexJob)
    (hstep : dictGet (tryActivate now s).jobs jid = some job') :
    ∃ j0, dictGet s.jobs jid = some j0 ∧
      (job' = j0 ∨ (j0.status = "queued" ∧
        job' = { j0 with status := "active", started_at := some now })) := by
  have h := activateLoop_dictGet now s.max_workers s.queue s.jobs s.active jid
  rw [tryActivate_jobs] at hstep
  rcases h with hl | ⟨j2, h2, h2s, h2g⟩
  · rw [hl] at hstep
    exact ⟨job', hstep, Or.inl rfl⟩
  · rw [h2g] at hstep
    exact ⟨j2, h2, Or.inr ⟨h2s, (Option.some.inj hstep).symm⟩⟩

/-- Claim C3 counterexample: in `sAB` (single worker, `a` active, `b`
queued) `complete` succeeds on the still-queued job `b`, which therefore
moves from queued directly to terminal without ever being active —
a transition the claimed state machine
(queued → active → terminal) does not contain. -/
theorem c3_counterexample :
    (dictGet sAB.jobs "b").map (fun j => j.status) = some "queued" ∧
    "b" ∉ sAB.active ∧
    (complete sAB "b" 3).2 = true ∧
    ((complete sAB "b" 3).1.recent.map (fun j => (j.id, j.status))) =
      [("b", "completed")] :=
  ⟨rfl, by decide, rfl, rfl⟩

/-- Claim C3 (amended): job statuses move forward only.  Any id live
before and after a step keeps its status or moves from queued to active
(activation); Complete and Fail move a live job — queued or active — to
terminal status in the history and delete it from the live map; Cancel
deletes a live job with no history entry; and in reachable states live
jobs are only ever queued or active while history jobs are only
completed or failed, so no terminal job is ever resurrected. -/
theorem c3_forward_only_transitions :
    (∀ (s : JobQueue) (op : Op), okOp s op → ∀ jid job job',
      dictGet s.jobs jid = some job →
      dictGet (stepOp s op).jobs jid = some job' →
      job'.status = job.status ∨
        (job.status = "queued" ∧ job'.status = "active")) ∧
    (∀ s : JobQueue, Reachable s →
      (∀ p ∈ s.jobs, p.2.status = "queued" ∨ p.2.status = "active") ∧
      (∀ j ∈ s.recent, j.status = "completed" ∨ j.status = "failed")) ∧
    (∀ (s : JobQueue) (jid : String) (now : ℚ) (job : IndexJob),
      dictGet s.jobs jid = some job →
      ((complete s jid now).1.recent.head?).map (fun j => j.status) =
        some "completed" ∧
      dictGet (complete s jid now).1.jobs jid = none) ∧
    (∀ (s : JobQueue) (jid err : String) (now : ℚ) (job : IndexJob),
      dictGet s.jobs jid = some job →
      ((fail s jid err now).1.recent.head?).map (fun j => j.status) =
        some "failed" ∧
      dictGet (fail s jid err now).1.jobs jid = none) ∧
    (∀ (s : JobQueue) (jid : String) (now : ℚ) (job : IndexJob),
      dictGet s.jobs jid = some job →
      (cancel s jid now).1.recent = s.recent ∧
      dictGet (cancel s jid now).1.jobs jid = none) := by
  refine ⟨?_, ?_, ?_, ?_, ?_⟩
  · intro s op hok jid job job' hget hstep
    cases op with
    | register jid' pr tc iid now =>
      obtain ⟨hfresh, h0⟩ := hok
      have hne : jid ≠ jid' := by
        intro hh
        rw [hh, hfresh.1] at hget
        cases hget
      simp only [stepOp] at hstep
      rw [register_fst] at hstep
      obtain ⟨j0, hj0, hcase⟩ := tryActivate_transition_rev _ now jid job' hstep
      rw [registerMid_jobs, dictGet_dictSet_ne _ _ _ _ hne, hget] at hj0
      have hj0' : j0 = job := (Option.some.inj hj0).symm
      subst hj0'
      rcases hcase with rfl | ⟨hq, rfl⟩
      · exact Or.inl rfl
      · exact Or.inr ⟨hq, rfl⟩
    | update_progress jid0 cur =>
      cases hget0 : dictGet s.jobs jid0 with
      | none =>
        have hstep' : dictGet s.jobs jid = some job' := by
          simpa only [stepOp, update_progress, hget0] using hstep
        rw [hget] at hstep'
        exact Or.inl (congrArg IndexJob.status (Option.some.inj hstep').symm)
      | some job0 =>
        by_cases hst : job0.status = "active"
        · have hstep' : dictGet
              (dictSet s.jobs jid0 { job0 with current := cur }) jid =
              some job' := by
            simpa only [stepOp, update_progress, hget0, if_pos hst] using hstep
          by_cases hj : jid = jid0
          · subst hj
            rw [hget] at hget0
            have hj0 : job = job0 := Option.some.inj hget0
            subst hj0
            rw [dictGet_dictSet_self] at hstep'
            have hj' : ({ job with current := cur } : IndexJob) = job' :=
              Option.some.inj hstep'
            subst hj'
            exact Or.inl rfl
          · rw [dictGet_dictSet_ne _ _ _ _ hj, hget] at hstep'
            exact Or.inl (congrArg IndexJob.status (Option.some.inj hstep').symm)
        · have hstep' : dictGet s.jobs jid = some job' := by
            simpa only [stepOp, update_progress, hget0, if_neg hst] using hstep
          rw [hget] at hstep'
          exact Or.inl (congrArg IndexJob.status (Option.some.inj hstep').symm)
    | complete jid0 now =>
      cases hget0 : dictGet s.jobs jid0 with
      | none =>
        have hstep' : dictGet s.jobs jid = some job' := by
          simpa only [stepOp, complete, hget0] using hstep
        rw [hget] at hstep'
        exact Or.inl (congrArg IndexJob.status (Option.some.inj hstep').symm)
      | some job0 =>
        have hstep' : dictGet
            (tryActivate now (completeMid s jid0 now job0)).jobs jid =
            some job' := by
          simp only [stepOp] at hstep
          rw [complete_eq s jid0 now job0 hget0] at hstep
          exact hstep
        obtain ⟨j0, hj0, hcase⟩ :=
          tryActivate_transition_rev _ now jid job' hstep'
        rw [completeMid_jobs] at hj0
        by_cases hj : jid = jid0
        · rw [hj, dictGet_dictDel_self] at hj0
          cases hj0
        · rw [dictGet_dictDel_ne _ _ _ hj, hget] at hj0
          have hj0' : j0 = job := (Option.some.inj hj0).symm
          subst hj0'
          rcases hcase with rfl | ⟨hq, rfl⟩
          · exact Or.inl rfl
          · exact Or.inr ⟨hq, rfl⟩
    | fail jid0 err now =>
      cases hget0 : dictGet s.jobs jid0 with
      | none =>
        have hstep' : dictGet s.jobs jid = some job' := by
          simpa only [stepOp, fail, hget0] using hstep
        rw [hget] at hstep'
        exact Or.inl (congrArg IndexJob.status (Option.some.inj hstep').symm)
      | some job0 =>
        have hstep' : dictGet
            (tryActivate now (failMid s jid0 err now job0)).jobs jid =
            some job' := by
          simp only [stepOp] at hstep
          rw [fail_eq s jid0 err now job0 hget0] at hstep
          exact hstep
        obtain ⟨j0, hj0, hcase⟩ :=
          tryActivate_transition_rev _ now jid job' hstep'
        rw [failMid_jobs] at hj0
        by_cases hj : jid = jid0
        · rw [hj, dictGet_dictDel_self] at hj0
          cases hj0
        · rw [dictGet_dictDel_ne _ _ _ hj, hget] at hj0
          have hj0' : j0 = job := (Option.some.inj hj0).symm
          subst hj0'
          rcases hcase with rfl | ⟨hq, rfl⟩
          · exact Or.inl rfl
          · exact Or.inr ⟨hq, rfl⟩
    | cancel jid0 now =>
      cases hget0 : dictGet s.jobs jid0 with
      | none =>
        have hstep' : dictGet s.jobs jid = some job' := by
          simpa only [stepOp, cancel, hget0] using hstep
        rw [hget] at hstep'
        exact Or.inl (congrArg IndexJob.status (Option.some.inj hstep').symm)
      | some job0 =>
        have hstep' : dictGet
            (tryActivate now (cancelMid s jid0)).jobs jid = some job' := by
          simp only [stepOp] at hstep
          rw [cancel_eq s jid0 now job0 hget0] at hstep
          exact hstep
        obtain ⟨j0, hj0, hcase⟩ :=
          tryActivate_transition_rev _ now jid job' hstep'
        rw [cancelMid_jobs] at hj0
        by_cases hj : jid = jid0
        · rw [hj, dictGet_dictDel_self] at hj0
          cases hj0
        · rw [dictGet_dictDel_ne _ _ _ hj, hget] at hj0
          have hj0' : j0 = job := (Option.some.inj hj0).symm
          subst hj0'
          rcases hcase with rfl | ⟨hq, rfl⟩
          · exact Or.inl rfl
          · exact Or.inr ⟨hq, rfl⟩
    | clear_recent =>
      have hstep' : dictGet s.jobs jid = some job' := by
        simpa only [stepOp, clear_recent] using hstep
      rw [hget] at hstep'
      exact Or.inl (congrArg IndexJob.status (Option.some.inj hstep').symm)
  · intro s hs
    have hi := reachable_inv s hs
    exact ⟨hi.liveStatus, hi.recentStatus⟩
  · intro s jid now job hget
    rw [complete_eq s jid now job hget]
    refine ⟨rfl, ?_⟩
    refine tryActivate_dictGet_none now _ jid ?_
    rw [completeMid_jobs]
    exact dictGet_dictDel_self s.jobs jid
  · intro s jid err now job hget
    rw [fail_eq s jid err now job hget]
    refine ⟨rfl, ?_⟩
    refine tryActivate_dictGet_none now _ jid ?_
    rw [failMid_jobs]
    exact dictGet_dictDel_self s.jobs jid
  · intro s jid now job hget
    rw [cancel_eq s jid now job hget]
    refine ⟨rfl, ?_⟩
    refine tryActivate_dictGet_none now _ jid ?_
    rw [cancelMid_jobs]
    exact dictGet_dictDel_self s.jobs jid

theorem c3_forward_only_transitions_witness :
    ((dictGet sAB.jobs "a").map (fun j => j.status) = some "active") ∧
    (cancel sAB "a" 3).1.recent = sAB.recent ∧
    dictGet (cancel sAB "a" 3).1.jobs "a" = none := by
  have h5 := c3_forward_only_transitions.2.2.2.2 sAB "a" 3 jobA sAB_jobs_a
  exact ⟨rfl, h5.1, h5.2⟩

theorem completeMid_tcp (s : JobQueue) (jid : String) (now : ℚ)
    (job : IndexJob) :
    (completeMid s jid now job).total_chunks_processed =
      if pyTruthy job.started_at then
        s.total_chunks_processed + job.total_chunks
      else s.total_chunks_processed := rfl

theorem completeMid_tpt (s : JobQueue) (jid : String) (now : ℚ)
    (job : IndexJob) :
    (completeMid s jid now job).total_processing_time =
      if pyTruthy job.started_at then
        s.total_processing_time + (now - job.started_at.getD 0)
      else s.total_processing_time := rfl

/-- Claim C4: Complete(job_id) returns false and changes no state when
the id is unknown; otherwise it returns true, sets the job's status to
completed and completed_at to now, forces current = total_chunks,
removes the id from the active set and the live map, adds total_chunks
and the job's duration to the historical throughput accumulators exactly
when the job had been started, inserts the job at the front of recent,
and retries admission on the resulting state. -/
theorem c4_complete_semantics (s : JobQueue) (jid : String) (now : ℚ)
    (hreach : Reachable s) :
    (dictGet s.jobs jid = none → complete s jid now = (s, false)) ∧
    (∀ job, dictGet s.jobs jid = some job →
      (complete s jid now).2 = true ∧
      (complete s jid now).1 = tryActivate now (completeMid s jid now job) ∧
      (complete s jid now).1.recent =
        ({ job with
           status := "completed", completed_at := some now,
           current := job.total_chunks } :: s.recent).take 10 ∧
      ((complete s jid now).1.recent.head?).map (fun j => j.status) =
        some "completed" ∧
      ((complete s jid now).1.recent.head?).map (fun j => j.completed_at) =
        some (some now) ∧
      ((complete s jid now).1.recent.head?).map (fun j => j.current) =
        some job.total_chunks ∧
      dictGet (complete s jid now).1.jobs jid = none ∧
      jid ∉ (complete s jid now).1.active ∧
      (job.started_at = none →
        (complete s jid now).1.total_chunks_processed =
          s.total_chunks_processed ∧
        (complete s jid now).1.total_processing_time =
          s.total_processing_time) ∧
      (∀ t0, job.started_at = some t0 →
        (complete s jid now).1.total_chunks_processed =
          s.total_chunks_processed + job.total_chunks ∧
        (complete s jid now).1.total_processing_time =
          s.total_processing_time + (now - t0))) := by
  constructor
  · intro hnone
    simp only [complete, hnone]
  · intro job hget
    have hmem := dictGet_mem _ _ _ hget
    have hinv := reachable_inv s hreach
    have htru : pyTruthy job.started_at = job.started_at.isSome := by
      cases hsa : job.started_at with
      | none => rfl
      | some t =>
        have hpos := hinv.timesPos (jid, job) hmem t hsa
        simp [pyTruthy]
        exact ne_of_gt hpos
    rw [complete_eq s jid now job hget]
    refine ⟨rfl, rfl, rfl, rfl, rfl, rfl, ?_, ?_, ?_, ?_⟩
    · refine tryActivate_dictGet_none now _ jid ?_
      rw [completeMid_jobs]
      exact dictGet_dictDel_self s.jobs jid
    · refine tryActivate_not_mem_active now _ jid ?_ ?_
      · rw [completeMid_active]
        intro hmem'
        exact ((mem_setDiscard _ _ _).mp hmem').2 rfl
      · rw [completeMid_jobs]
        exact dictGet_dictDel_self s.jobs jid
    · intro hnone
      constructor
      · rw [tryActivate_tcp, completeMid_tcp, htru, hnone]
        simp
      · rw [tryActivate_tpt, completeMid_tpt, htru, hnone]
        simp
    · intro t0 ht0
      constructor
      · rw [tryActivate_tcp, completeMid_tcp, htru, ht0]
        simp
      · rw [tryActivate_tpt, completeMid_tpt, htru, ht0]
        simp

theorem c4_complete_semantics_witness :
    (complete sAB "a" 3).2 = true ∧
    dictGet (complete sAB "a" 3).1.jobs "a" = none ∧
    "a" ∉ (complete sAB "a" 3).1.active ∧
    (complete sAB "a" 3).1.total_chunks_processed = 0 + 3 ∧
    (complete sAB "a" 3).1.total_processing_time = 0 + (3 - 1) := by
  have h := (c4_complete_semantics sAB "a" 3 reach_sAB).2 jobA sAB_jobs_a
  have hacc := h.2.2.2.2.2.2.2.2.2 1 rfl
  exact ⟨h.1, h.2.2.2.2.2.2.1, h.2.2.2.2.2.2.2.1, hacc.1, hacc.2⟩

/-- Claim C5: UpdateProgress(job_id, current) returns true and overwrites
the job's current field unconditionally — any value, no monotonicity
check — exactly when the job exists in the live map with status active;
when the job is missing or not active it returns false and leaves the
whole state unchanged. -/
theorem c5_update_progress_semantics (s : JobQueue) (jid : String)
    (cur : Int) :
    (dictGet s.jobs jid = none → update_progress s jid cur = (s, false)) ∧
    (∀ job, dictGet s.jobs jid = some job → job.status ≠ "active" →
      update_progress s jid cur = (s, false)) ∧
    (∀ job, dictGet s.jobs jid = some job → job.status = "active" →
      (update_progress s jid cur).2 = true ∧
      dictGet (update_progress s jid cur).1.jobs jid =
        some { job with current := cur } ∧
      (∀ k, k ≠ jid →
        dictGet (update_progress s jid cur).1.jobs k = dictGet s.jobs k) ∧
      (update_progress s jid cur).1.queue = s.queue ∧
      (update_progress s jid cur).1.active = s.active ∧
      (update_progress s jid cur).1.recent = s.recent ∧
      (update_progress s jid cur).1.total_chunks_processed =
        s.total_chunks_processed ∧
      (update_progress s jid cur).1.total_processing_time =
        s.total_processing_time) := by
  refine ⟨?_, ?_, ?_⟩
  · intro hnone
    simp only [update_progress, hnone]
  · intro job hget hst
    simp only [update_progress, hget, if_neg hst]
  · intro job hget hst
    simp only [update_progress, hget, if_pos hst]
    exact ⟨by trivial, dictGet_dictSet_self s.jobs jid _,
      fun k hk => dictGet_dictSet_ne s.jobs jid k _ hk,
      by trivial, by trivial, by trivial, by trivial, by trivial⟩

theorem c5_update_progress_semantics_witness :
    (update_progress sAB "a" 7).2 = true ∧
    (dictGet (update_progress sAB "a" 7).1.jobs "a").map
      (fun j => j.current) = some 7 ∧
    update_progress sAB "b" 7 = (sAB, false) ∧
    update_progress sAB "zzz" 7 = (sAB, false) := by
  have h3 := (c5_update_progress_semantics sAB "a" 7).2.2 jobA sAB_jobs_a rfl
  have h2 := (c5_update_progress_semantics sAB "b" 7).2.1 jobB sAB_jobs_b
    (by decide)
  have h1 := (c5_update_progress_semantics sAB "zzz" 7).1 (by rfl)
  refine ⟨h3.1, ?_, h2, h1⟩
  rw [h3.2.1]
  rfl

/-- Claim C6: Cancel on a registered job returns true, removes the id
from whichever of the wait list and the active set it occupies, deletes
it from the live map, creates no history entry (recent is unchanged and
the id appears in neither recent nor any live collection afterwards),
and retries admission — concretely, cancelling the sole active job `a`
of the single-worker state `sAB` activates the next queued job `b`;
Cancel returns false on an unknown id. -/
theorem c6_cancel_semantics (s : JobQueue) (jid : String) (now : ℚ)
    (hreach : Reachable s) :
    (dictGet s.jobs jid = none → cancel s jid now = (s, false)) ∧
    (∀ job, dictGet s.jobs jid = some job →
      (cancel s jid now).2 = true ∧
      (cancel s jid now).1 = tryActivate now (cancelMid s jid) ∧
      (cancel s jid now).1.recent = s.recent ∧
      jid ∉ recentIds (cancel s jid now).1 ∧
      dictGet (cancel s jid now).1.jobs jid = none ∧
      jid ∉ (cancel s jid now).1.active ∧
      jid ∉ (cancel s jid now).1.queue) ∧
    ((cancel sAB "a" 3).1.active = ["b"] ∧
      (dictGet (cancel sAB "a" 3).1.jobs "b").map (fun j => j.status) =
        some "active" ∧
      (dictGet (cancel sAB "a" 3).1.jobs "b").map (fun j => j.started_at) =
        some (some 3)) := by
  refine ⟨?_, ?_, ?_⟩
  · intro hnone
    simp only [cancel, hnone]
  · intro job hget
    have hinv := reachable_inv s hreach
    have hmem := dictGet_mem _ _ _ hget
    rw [cancel_eq s jid now job hget]
    refine ⟨rfl, rfl, rfl, ?_, ?_, ?_, ?_⟩
    · have hrec : recentIds (tryActivate now (cancelMid s jid)) =
          recentIds s := by
        unfold recentIds
        rw [tryActivate_recent, cancelMid_recent]
      rw [hrec]
      exact hinv.liveRecentDisj (jid, job) hmem
    · refine tryActivate_dictGet_none now _ jid ?_
      rw [cancelMid_jobs]
      exact dictGet_dictDel_self s.jobs jid
    · refine tryActivate_not_mem_active now _ jid ?_ ?_
      · rw [cancelMid_active]
        intro hmem'
        exact ((mem_setDiscard _ _ _).mp hmem').2 rfl
      · rw [cancelMid_jobs]
        exact dictGet_dictDel_self s.jobs jid
    · refine tryActivate_not_mem_queue now _ jid ?_
      rw [cancelMid_queue]
      exact hinv.queueNodup.not_mem_erase
  · exact ⟨by decide, rfl, rfl⟩

theorem c6_cancel_semantics_witness :
    (cancel sAB "a" 3).2 = true ∧
    "a" ∉ recentIds (cancel sAB "a" 3).1 ∧
    dictGet (cancel sAB "a" 3).1.jobs "a" = none ∧
    "a" ∉ (cancel sAB "a" 3).1.active ∧
    "a" ∉ (cancel sAB "a" 3).1.queue := by
  have h := (c6_cancel_semantics sAB "a" 3 reach_sAB).2.1 jobA sAB_jobs_a
  exact ⟨h.1, h.2.2.2.1, h.2.2.2.2.1, h.2.2.2.2.2.1, h.2.2.2.2.2.2⟩

/-- Claim C7 counterexample: in `sCE` the job `b` was completed while
still queued, so it is terminal (gone from the live map, present in
recent), yet its id lingers in the wait list and `get_position` reports
rank 1 instead of the claimed -1. -/
theorem c7_counterexample :
    "b" ∉ sCE.jobs.map (fun p => p.1) ∧
    sCE.recent.map (fun j => (j.id, j.status)) = [("b", "completed")] ∧
    "b" ∈ sCE.queue ∧
    get_position sCE "b" = 1 :=
  ⟨by decide, rfl, by decide, by decide⟩

/-- Claim C7 (amended): GetPosition(job_id) returns 0 if the id is in
the active set, the 1-based rank of its first occurrence in the wait
list if it is present there, and -1 if it is in neither collection; a
job that reached a terminal state while still queued leaves a stale id
in the wait list and reports its rank there rather than -1. -/
theorem c7_get_position (s : JobQueue) (jid : String) :
    (jid ∈ s.active → get_position s jid = 0) ∧
    (jid ∉ s.active → ∀ i, s.queue.findIdx? (fun x => x == jid) = some i →
      get_position s jid = (i : Int) + 1) ∧
    (jid ∉ s.active → jid ∉ s.queue → get_position s jid = -1) := by
  refine ⟨?_, ?_, ?_⟩
  · intro h
    simp only [get_position, if_pos h]
  · intro h i hidx
    simp only [get_position, if_neg h, hidx]
  · intro h hq
    have hnone : s.queue.findIdx? (fun x => x == jid) = none := by
      rw [List.findIdx?_eq_none_iff]
      intro a ha
      exact beq_eq_false_iff_ne.mpr (fun hh => hq (hh ▸ ha))
    simp only [get_position, if_neg h, hnone]

theorem c7_get_position_witness :
    get_position sAB "a" = 0 ∧ get_position sAB "b" = 1 ∧
    get_position sAB "zzz" = -1 :=
  ⟨(c7_get_position sAB "a").1 (by decide),
   (c7_get_position sAB "b").2.1 (by decide) 0 (by rfl),
   (c7_get_position sAB "zzz").2.2 (by decide) (by decide)⟩

/-! ### Recent history bound -/

theorem step_recent_le (s : JobQueue) (op : Op)
    (h : s.recent.length ≤ 10) : (stepOp s op).recent.length ≤ 10 := by
  cases op with
  | register jid pr tc iid now =>
    show (tryActivate now _).recent.length ≤ 10
    rw [tryActivate_recent]
    exact h
  | update_progress jid cur =>
    cases hget : dictGet s.jobs jid with
    | none => simpa only [stepOp, update_progress, hget] using h
    | some job =>
      by_cases hst : job.status = "active"
      · simpa only [stepOp, update_progress, hget, if_pos hst] using h
      · simpa only [stepOp, update_progress, hget, if_neg hst] using h
  | complete jid now =>
    cases hget : dictGet s.jobs jid with
    | none => simpa only [stepOp, complete, hget] using h
    | some job =>
      simp only [stepOp]
      rw [complete_eq s jid now job hget]
      show (tryActivate now (completeMid s jid now job)).recent.length ≤ 10
      rw [tryActivate_recent, completeMid_recent]
      exact (List.length_take_le _ _)
  | fail jid err now =>
    cases hget : dictGet s.jobs jid with
    | none => simpa only [stepOp, fail, hget] using h
    | some job =>
      simp only [stepOp]
      rw [fail_eq s jid err now job hget]
      show (tryActivate now (failMid s jid err now job)).recent.length ≤ 10
      rw [tryActivate_recent, failMid_recent]
      exact (List.length_take_le _ _)
  | cancel jid now =>
    cases hget : dictGet s.jobs jid with
    | none => simpa only [stepOp, cancel, hget] using h
    | some job =>
      simp only [stepOp]
      rw [cancel_eq s jid now job hget]
      show (tryActivate now (cancelMid s jid)).recent.length ≤ 10
      rw [tryActivate_recent, cancelMid_recent]
      exact h
  | clear_recent => simpa only [stepOp, clear_recent] using Nat.zero_le 10

theorem runOps_recent_le (ops : List Op) (s : JobQueue)
    (h : s.recent.length ≤ 10) : (runOps s ops).recent.length ≤ 10 := by
  induction ops generalizing s with
  | nil => exact h
  | cons op rest ih =>
    show (runOps (stepOp s op) rest).recent.length ≤ 10
    exact ih (stepOp s op) (step_recent_le s op h)

/-- Claim C8: after every operation the recent history holds at most 10
entries; each insertion by Complete or Fail puts the terminated job at
the front and truncates to the 10 newest (evicting the oldest beyond
10); completing twelve distinct jobs leaves exactly the last ten,
most-recent-first. -/
theorem c8_recent_history_bound :
    (∀ (mw : Nat) (ops : List Op),
      (runOps (initQueue mw) ops).recent.length ≤ 10) ∧
    (∀ (s : JobQueue) (jid : String) (now : ℚ) (job : IndexJob),
      dictGet s.jobs jid = some job →
      (complete s jid now).1.recent =
        ({ job with
           status := "completed", completed_at := some now,
           current := job.total_chunks } :: s.recent).take 10) ∧
    (∀ (s : JobQueue) (jid err : String) (now : ℚ) (job : IndexJob),
      dictGet s.jobs jid = some job →
      (fail s jid err now).1.recent =
        ({ job with
           status := "failed", completed_at := some now,
           error := some err } :: s.recent).take 10) ∧
    (recentIds s12 = ["l", "k", "j", "i", "h", "g", "f", "e", "d", "c"] ∧
      s12.recent.length = 10) := by
  refine ⟨?_, ?_, ?_, by decide, by decide⟩
  · intro mw ops
    exact runOps_recent_le ops (initQueue mw) (by simp [initQueue])
  · intro s jid now job hget
    rw [complete_eq s jid now job hget]
    rfl
  · intro s jid err now job hget
    rw [fail_eq s jid err now job hget]
    rfl

theorem c8_recent_history_bound_witness :
    (complete sAB "a" 5).1.recent.map (fun j => (j.id, j.status)) =
      [("a", "completed")] := by
  have h := c8_recent_history_bound.2.1 sAB "a" 5 jobA sAB_jobs_a
  rw [h]
  rfl

/-! ### Throughput accumulators of the concrete state s9 -/

theorem s9_tcp : s9.total_chunks_processed = 100 := by
  simp [s9, runOps, stepOp, register, complete, tryActivate, activateLoop,
    dictGet, dictSet, dictDel, setAdd, setDiscard, pyTruthy, initQueue,
    newJob, List.foldl]

theorem s9_tpt : s9.total_processing_time = 10 := by
  simp [s9, runOps, stepOp, register, complete, tryActivate, activateLoop,
    dictGet, dictSet, dictDel, setAdd, setDiscard, pyTruthy, initQueue,
    newJob, List.foldl]
  norm_num

/-- Claim C9 counterexample: in `sCE` a job has completed (it sits in
recent with status completed), yet because it was never started the
throughput accumulators are still zero and EstimateWaitTime returns
none rather than a rate-based estimate. -/
theorem c9_counterexample :
    sCE.recent.map (fun j => j.status) = ["completed"] ∧
    estimate_wait_time sCE 1 50 = none :=
  ⟨rfl, by decide⟩

/-- Claim C9 (amended): EstimateWaitTime returns none until the
cumulative completed duration is positive — a job completed without ever
starting contributes nothing, so a completion alone does not suffice —
and otherwise returns chunks_ahead divided by the single global
historical rate (cumulative completed chunks / cumulative completed
duration), none again if that rate is not positive; after one started
job of 100 chunks completes in 10 time-units, chunks_ahead = 50 yields
an estimate of 5 time-units. -/
theorem c9_estimate_wait_time (s : JobQueue) (pos ca : Int) :
    (s.total_processing_time = 0 → estimate_wait_time s pos ca = none) ∧
    (s.total_processing_time ≠ 0 →
      0 < (s.total_chunks_processed : ℚ) / s.total_processing_time →
      estimate_wait_time s pos ca =
        some ((ca : ℚ) /
          ((s.total_chunks_processed : ℚ) / s.total_processing_time))) ∧
    (s.total_processing_time ≠ 0 →
      ¬0 < (s.total_chunks_processed : ℚ) / s.total_processing_time →
      estimate_wait_time s pos ca = none) ∧
    estimate_wait_time s9 1 50 = some 5 := by
  refine ⟨?_, ?_, ?_, ?_⟩
  · intro h
    simp only [estimate_wait_time, if_pos h]
  · intro h hr
    simp only [estimate_wait_time, if_neg h, if_pos hr]
  · intro h hr
    simp only [estimate_wait_time, if_neg h, if_neg hr]
  · unfold estimate_wait_time
    rw [s9_tpt, s9_tcp]
    norm_num

theorem c9_estimate_wait_time_witness :
    s9.total_processing_time ≠ 0 ∧ estimate_wait_time s9 1 50 = some 5 := by
  have h1 : s9.total_processing_time ≠ 0 := by
    rw [s9_tpt]
    norm_num
  have h2 : (0 : ℚ) <
      (s9.total_chunks_processed : ℚ) / s9.total_processing_time := by
    rw [s9_tpt, s9_tcp]
    norm_num
  have h := (c9_estimate_wait_time s9 1 50).2.1 h1 h2
  refine ⟨h1, ?_⟩
  rw [h, s9_tpt, s9_tcp]
  norm_num

/-- Claim C10 counterexample: `current` is overwritten with whatever the
caller supplies — after reporting 5 the job accepts 3 (a decrease), 99
(beyond total_chunks = 10) and -2 (negative), so `current` is neither
monotone nor confined to [0, total_chunks]. -/
theorem c10_counterexample :
    (dictGet s10a.jobs "a").map (fun j => j.current) = some 5 ∧
    (update_progress s10a "a" 3).2 = true ∧
    (dictGet (update_progress s10a "a" 3).1.jobs "a").map
      (fun j => j.current) = some 3 ∧
    (update_progress s10a "a" 99).2 = true ∧
    (dictGet (update_progress s10a "a" 99).1.jobs "a").map
      (fun j => (j.current, j.total_chunks)) = some (99, 10) ∧
    (update_progress s10a "a" (-2)).2 = true ∧
    (dictGet (update_progress s10a "a" (-2)).1.jobs "a").map
      (fun j => j.current) = some (-2) :=
  ⟨rfl, rfl, rfl, rfl, rfl, rfl, rfl⟩

/-- Claim C10 (amended): a job's `current` starts at the default 0 at
registration; UpdateProgress overwrites it with the caller-supplied
value with no monotonicity or range check, so it may decrease, go
negative, or exceed total_chunks; Complete forces
current = total_chunks. -/
theorem c10_current_overwrite (s : JobQueue) (jid pr iid : String)
    (tc cur : Int) (now : ℚ) :
    (∃ j, dictGet (register s jid pr tc iid now).1.jobs jid = some j ∧
      j.current = 0) ∧
    (∀ job, dictGet s.jobs jid = some job → job.status = "active" →
      dictGet (update_progress s jid cur).1.jobs jid =
        some { job with current := cur }) ∧
    (∀ job, dictGet s.jobs jid = some job →
      ((complete s jid now).1.recent.head?).map (fun j => j.current) =
        some job.total_chunks) := by
  refine ⟨?_, ?_, ?_⟩
  · rcases activateLoop_dictGet now (registerMid s jid pr tc iid now).max_workers
        (registerMid s jid pr tc iid now).queue
        (registerMid s jid pr tc iid now).jobs
        (registerMid s jid pr tc iid now).active jid with hl | ⟨j2, h2, h2s, h2g⟩
    · refine ⟨newJob jid pr tc iid now, ?_, rfl⟩
      rw [register_fst, tryActivate_jobs, hl, registerMid_jobs]
      exact dictGet_dictSet_self _ _ _
    · rw [registerMid_jobs, dictGet_dictSet_self] at h2
      have hj2 : j2 = newJob jid pr tc iid now := (Option.some.inj h2).symm
      subst hj2
      refine ⟨{ newJob jid pr tc iid now with
                status := "active", started_at := some now }, ?_, rfl⟩
      rw [register_fst, tryActivate_jobs]
      exact h2g
  · intro job hget hst
    simp only [update_progress, hget, if_pos hst]
    exact dictGet_dictSet_self s.jobs jid _
  · intro job hget
    rw [complete_eq s jid now job hget]
    rfl

theorem c10_current_overwrite_witness :
    (∃ j, dictGet (register sAB "z" "p" 6 "i" 4).1.jobs "z" = some j ∧
      j.current = 0) ∧
    dictGet (update_progress s10 "a" 7).1.jobs "a" =
      some { jobA10 with current := 7 } :=
  ⟨(c10_current_overwrite sAB "z" "p" "i" 6 7 4).1,
   (c10_current_overwrite s10 "a" "p" "i" 10 7 1).2.1 jobA10
     (by rfl) (by rfl)⟩

end EmbeddingServer
